import Mathlib

/- Shallow embedding of the `indexed-line-reader` crate (src/lib.rs).

Modelling conventions:
* The wrapped byte stream is modelled as its list of newline-terminated
  lines: `stream : List ILR.Line`, where each `Line` is the list of content
  bytes of one line, excluding the terminating newline byte.  The raw byte
  sequence of the stream is each line followed by one newline byte
  (`ILR.streamBytes`), so byte offsets are sums of `length + 1`.
* `u64` values are modelled as `Nat`; subtraction (which wraps around in the
  source in release builds) is modelled by `ILR.u64sub`, which reduces modulo
  `2 ^ 64`.  `i64` values are modelled as `Int`; the `as u64` and `as i64`
  casts are `ILR.intToU64` and `ILR.u64ToI64`.  `i64::abs` composed with the
  cast to `u64` agrees with `Int.natAbs` on the whole `i64` range (including
  the minimum value, where the wrapping `abs` and the cast both yield
  `2 ^ 63`), so it is modelled by `Int.natAbs`.
* `BTreeMap<u64, u64>` is modelled as an association list `List (Nat × Nat)`
  kept with strictly increasing keys: `btreeInsert` inserts or replaces,
  `btreeGet` looks up an exact key.
* Reads and seeks on in-memory streams never fail, so the `Result<_, Error>`
  values of the source are modelled by plain values.  The source's `seek` is
  mutually recursive through `SeekFrom` reductions and can fail to terminate
  for granularities at least `2 ^ 63` (where the `as i64` cast of
  `extra_lines` in the `Start` branch becomes negative); it is therefore
  modelled with a fuel parameter (`seekCore`), fuel 3 being enough for every
  case in which the source terminates.
-/

namespace ILR

/-- One line of the stream: its content bytes, without the newline byte. -/
abbrev Line := List Nat

/-- Bytes occupied by the given lines, one newline byte after each line. -/
def totalBytes (ls : List Line) : Nat := (ls.map (fun l => l.length + 1)).sum

/-- Byte offset of the first byte of line `k` (0-indexed). -/
def lineOffset (ls : List Line) (k : Nat) : Nat := totalBytes (ls.take k)

/-- Raw byte sequence of the stream. -/
def streamBytes (ls : List Line) : List Nat := (ls.map (fun l => l ++ [10])).flatten

/-- The sequence of lines a buffered reader yields when reading from byte
position `p` of the stream (the first yielded line is partial when `p` points
inside a line). -/
def linesFromPos : List Line → Nat → List Line
  | [], _ => []
  | l :: rest, p =>
      if p ≤ l.length then l.drop p :: linesFromPos rest 0
      else linesFromPos rest (p - (l.length + 1))

def u64Mod : Nat := 2 ^ 64

/-- Wrapping `u64` subtraction. -/
def u64sub (a b : Nat) : Nat := (a + (u64Mod - b % u64Mod)) % u64Mod

/-- The `as u64` cast of an `i64` value. -/
def intToU64 (p : Int) : Nat := (p % (u64Mod : Int)).toNat

/-- The `as i64` cast of a `u64` value. -/
def u64ToI64 (n : Nat) : Int :=
  if n % u64Mod < 2 ^ 63 then ((n % u64Mod : Nat) : Int)
  else ((n % u64Mod : Nat) : Int) - (u64Mod : Int)

/-- `BTreeMap` exact-key lookup. -/
def btreeGet : List (Nat × Nat) → Nat → Option Nat
  | [], _ => none
  | (k, v) :: rest, key => if key = k then some v else btreeGet rest key

/-- `BTreeMap` insert-or-replace, keeping keys strictly increasing. -/
def btreeInsert : List (Nat × Nat) → Nat → Nat → List (Nat × Nat)
  | [], k, v => [(k, v)]
  | (k0, v0) :: rest, k, v =>
      if k < k0 then (k, v) :: (k0, v0) :: rest
      else if k = k0 then (k, v) :: rest
      else (k0, v0) :: btreeInsert rest k v

/-- `LinesIndex` (src/lib.rs lines 47-53). -/
structure LinesIndex where
  index : List (Nat × Nat)
  granularity : Nat
  line_count : Nat
  byte_count : Nat
deriving DecidableEq

/-- `LinesIndex::new`. -/
def LinesIndex.new (granularity : Nat) : LinesIndex := ⟨[], granularity, 0, 0⟩

/-- `LinesIndex::insert` (the source also returns the previous binding at the
key, which no caller uses). -/
def LinesIndex.insert (i : LinesIndex) (pos byte_count : Nat) : LinesIndex :=
  { i with index := btreeInsert i.index pos byte_count }

/-- `LinesIndex::clear`: clears only the entries map. -/
def LinesIndex.clear (i : LinesIndex) : LinesIndex := { i with index := [] }

/-- `LinesIndex::byte_count_at_pos`. -/
def LinesIndex.byte_count_at_pos (i : LinesIndex) (pos : Nat) : Option Nat :=
  btreeGet i.index pos

/-- `LinesIndex::last_indexed_pos`: the maximum key of the entries map. -/
def LinesIndex.last_indexed_pos (i : LinesIndex) : Option Nat :=
  (i.index.map Prod.fst).max?

/-- The `for (pos, line) in reader.lines().enumerate()` loop of
`LinesIndex::compute`: accumulates the byte and line counters and records an
entry every `granularity` lines.  Arguments after the line list: scan position
`pos`, the running `line_count` and `byte_count`, and the entries map. -/
def computeScan (g initial_pos : Nat) :
    List Line → Nat → Nat → Nat → List (Nat × Nat) → List (Nat × Nat) × Nat × Nat
  | [], _, line_count, byte_count, idx => (idx, line_count, byte_count)
  | l :: rest, pos, line_count, byte_count, idx =>
      let byte_count := byte_count + (l.length + 1)
      let idx :=
        if (pos + 1) % g = 0 then btreeInsert idx (initial_pos + pos + 1) byte_count else idx
      computeScan g initial_pos rest (pos + 1) (line_count + 1) byte_count idx

/-- `LinesIndex::compute` (src/lib.rs lines 89-112).  Returns the new index,
the returned line count, and the byte position the reader is left at.  The
source seeks the reader to the byte offset stored for the last indexed line
number, discards one line when that offset is positive, and scans the
remaining lines. -/
def LinesIndex.compute (i : LinesIndex) (stream : List Line) : LinesIndex × Nat × Nat :=
  let initial_pos := i.last_indexed_pos.getD 0
  let line_count := initial_pos
  let byte_count := (i.byte_count_at_pos line_count).getD 0
  let remaining0 := linesFromPos stream byte_count
  let remaining := if 0 < byte_count then remaining0.drop 1 else remaining0
  let scanned := computeScan i.granularity initial_pos remaining 0 line_count byte_count i.index
  ({ i with index := scanned.1, line_count := scanned.2.1, byte_count := scanned.2.2 },
    scanned.2.1, max byte_count (totalBytes stream))

/-- `std::io::SeekFrom`. -/
inductive SeekFrom where
  | Start : Nat → SeekFrom
  | Current : Int → SeekFrom
  | End : Int → SeekFrom
deriving DecidableEq

/-- `IndexedLineReader` (src/lib.rs lines 127-133).  The owned reader `T` is
modelled by the stream's line content together with its current byte
position. -/
structure IndexedLineReader where
  index : LinesIndex
  pos : Nat
  line_count : Nat
  stream : List Line
  streamPos : Nat
deriving DecidableEq

/-- `IndexedLineReader::new`. -/
def IndexedLineReader.new (stream : List Line) (index_granularity : Nat) : IndexedLineReader :=
  ⟨LinesIndex.new index_granularity, 0, 0, stream, 0⟩

/-- `IndexedLineReader::compute_index`. -/
def IndexedLineReader.compute_index (r : IndexedLineReader) : IndexedLineReader × Nat :=
  let c := r.index.compute r.stream
  ({ r with index := c.1, line_count := c.2.1, streamPos := c.2.2 }, c.2.1)

/-- `IndexedLineReader::clear_index`. -/
def IndexedLineReader.clear_index (r : IndexedLineReader) : IndexedLineReader :=
  { r with index := r.index.clear }

/-- `IndexedLineReader::get_current_pos`. -/
def IndexedLineReader.get_current_pos (r : IndexedLineReader) : Nat := r.pos

/-- `IndexedLineReader::seek_to_index`: repositions the stream at the byte
offset stored for `indexed_pos` (0 when absent) and returns the new offset. -/
def IndexedLineReader.seek_to_index (r : IndexedLineReader) (indexed_pos : Nat) :
    IndexedLineReader × Nat :=
  let byte_count := (r.index.byte_count_at_pos indexed_pos).getD 0
  ({ r with pos := indexed_pos, streamPos := byte_count }, byte_count)

/-- `IndexedLineReader::seek_to_closest_index` (src/lib.rs lines 178-197).
The source's `End` branch tail-calls the function itself on
`Start (line_count - |p|)`; that single reduction step is inlined here (the
`End` branch repeats the `Start` branch's body on the reduced position) so
that the definition is structurally recursive and kernel-reducible; the
theorem `seek_to_closest_index_End` below states the tail-call equation. -/
def IndexedLineReader.seek_to_closest_index (r : IndexedLineReader) :
    SeekFrom → IndexedLineReader × Nat
  | .Start p =>
      let extra_lines := p % r.index.granularity
      let closest_index := u64sub p extra_lines
      r.seek_to_index closest_index
  | .Current p =>
      let extra_lines := intToU64 p % r.index.granularity
      let extra_lines_from_current_pos := r.pos % r.index.granularity
      let previous_closest_index := u64sub r.pos extra_lines_from_current_pos
      let closest_index := u64sub (previous_closest_index + intToU64 p) extra_lines
      r.seek_to_index closest_index
  | .End p =>
      let p2 := u64sub r.line_count p.natAbs
      let extra_lines := p2 % r.index.granularity
      let closest_index := u64sub p2 extra_lines
      r.seek_to_index closest_index

/-- The line-consuming loop of `IndexedLineReader::seek_forward`: returns the
number of lines consumed and the bytes they occupy.  `lines_left` is
decremented with wrapping `u64` subtraction, as in the source, so a call with
`lines = 0` consumes the whole remaining stream. -/
def seekForwardLoop : List Line → Nat → Nat × Nat
  | [], _ => (0, 0)
  | l :: rest, lines_left =>
      let lines_left := u64sub lines_left 1
      if lines_left = 0 then (1, l.length + 1)
      else
        let c := seekForwardLoop rest lines_left
        (c.1 + 1, c.2 + (l.length + 1))

/-- `IndexedLineReader::seek_forward` (src/lib.rs lines 199-214): returns the
reader, the `Ok` value (bytes advanced), and the number of lines consumed
(the latter only to state scan-cost properties). -/
def IndexedLineReader.seek_forward (r : IndexedLineReader) (lines : Nat) :
    IndexedLineReader × Nat × Nat :=
  let c := seekForwardLoop (linesFromPos r.stream r.streamPos) lines
  ({ r with pos := r.pos + c.1, streamPos := r.streamPos + c.2 }, c.2, c.1)

/-- `<IndexedLineReader as Seek>::seek` (src/lib.rs lines 232-269).  The last
`Nat` of the result is the total number of lines consumed by forward scans
during the call (a ghost output used only to state scan-cost properties).
`fuel` bounds the recursion depth of the `SeekFrom` reductions. -/
def IndexedLineReader.seekCore : IndexedLineReader → Nat → SeekFrom → Option (IndexedLineReader × Nat × Nat)
  | _, 0, _ => none
  | r0, fuel + 1, sf =>
      let r := r0.compute_index.1
      match sf with
      | .Start p =>
          let extra_lines := p % r.index.granularity
          let s := r.seek_to_closest_index (.Start p)
          if 0 < extra_lines then s.1.seekCore fuel (.Current (u64ToI64 extra_lines))
          else some (s.1, s.2, 0)
      | .Current p =>
          if 0 ≤ p then
            let extra_lines := intToU64 p % r.index.granularity
            let extra_lines_from_current_pos := r.pos % r.index.granularity
            let s := r.seek_to_closest_index (.Current p)
            if 0 < extra_lines + extra_lines_from_current_pos then
              let f := s.1.seek_forward (extra_lines + extra_lines_from_current_pos)
              some (f.1, f.2.1, f.2.2)
            else some (s.1, s.2, 0)
          else
            r.seekCore fuel (.Start (u64sub r.pos p.natAbs))
      | .End p => r.seekCore fuel (.Start (u64sub r.line_count p.natAbs))

/-- The public `seek`: recursion depth 3 covers every terminating case. -/
def IndexedLineReader.seek (r : IndexedLineReader) (sf : SeekFrom) :
    Option (IndexedLineReader × Nat) :=
  (r.seekCore 3 sf).map (fun x => (x.1, x.2.1))

/-- Total number of lines consumed by forward scans during a `seek` call. -/
def IndexedLineReader.seekScanned (r : IndexedLineReader) (sf : SeekFrom) : Option Nat :=
  (r.seekCore 3 sf).map (fun x => x.2.2)

/-- The wrapped stream's `read`: the bytes returned and the new byte position. -/
def readerRead (ls : List Line) (p n : Nat) : List Nat × Nat :=
  let bytes := ((streamBytes ls).drop p).take n
  (bytes, p + bytes.length)

/-- The wrapped stream's `fill_buf`: the buffered bytes available at `p`. -/
def readerFillBuf (ls : List Line) (p : Nat) : List Nat := (streamBytes ls).drop p

/-- `<IndexedLineReader as Read>::read` (src/lib.rs lines 217-221): delegates
to the wrapped stream. -/
def IndexedLineReader.read (r : IndexedLineReader) (n : Nat) : IndexedLineReader × List Nat :=
  let c := readerRead r.stream r.streamPos n
  ({ r with streamPos := c.2 }, c.1)

/-- `<IndexedLineReader as BufRead>::fill_buf` (src/lib.rs lines 224-226). -/
def IndexedLineReader.fill_buf (r : IndexedLineReader) : IndexedLineReader × List Nat :=
  (r, readerFillBuf r.stream r.streamPos)

/-- `<IndexedLineReader as BufRead>::consume` (src/lib.rs lines 227-229). -/
def IndexedLineReader.consume (r : IndexedLineReader) (amt : Nat) : IndexedLineReader :=
  { r with streamPos := r.streamPos + amt }

/-- The entries a full computation over `stream` records: one entry per
positive multiple of `g` up to the line count, mapping it to the byte offset
of the start of that line. -/
def boundaryEntries (stream : List Line) (g : Nat) : List (Nat × Nat) :=
  (List.range (stream.length / g)).map (fun i => ((i + 1) * g, lineOffset stream ((i + 1) * g)))

/- Concrete inputs used by the concrete theorems below. -/

/-- Three one-byte lines. -/
def exStream3 : List Line := [[97], [98], [99]]

/-- Four one-byte lines. -/
def exStream4 : List Line := [[97], [98], [99], [100]]

/-- Reader over `exStream4` with granularity 2, index computed once. -/
def exReader4 : IndexedLineReader := ((IndexedLineReader.new exStream4 2).compute_index).1

/-- Index over `exStream3` with granularity 2 after one computation. -/
def exIdx1 : LinesIndex := ((LinesIndex.new 2).compute exStream3).1

/-- `exIdx1` after a second computation over the unchanged stream. -/
def exIdx2 : LinesIndex := (exIdx1.compute exStream3).1

/-- Three lines of byte lengths 1, 1 and 5. -/
def exStreamA : List Line := [[97], [98], [99, 99, 99, 99, 99]]

/-- `exStreamA` with two more one-byte lines appended. -/
def exStreamB : List Line := exStreamA ++ [[100], [101]]

/- Arithmetic helper lemmas about the u64 model. -/

theorem u64sub_lt (a b : Nat) : u64sub a b < u64Mod := Nat.mod_lt _ (by decide)

theorem u64sub_eq (a b : Nat) (h1 : b ≤ a) (h2 : a < u64Mod) : u64sub a b = a - b := by
  unfold u64sub
  have hb : b % u64Mod = b := Nat.mod_eq_of_lt (lt_of_le_of_lt h1 h2)
  rw [hb]
  have h3 : a + (u64Mod - b) = u64Mod + (a - b) := by
    have : b ≤ u64Mod := le_of_lt (lt_of_le_of_lt h1 h2)
    omega
  rw [h3, Nat.add_mod_left]
  exact Nat.mod_eq_of_lt (by omega)

theorem intToU64_ofNat (n : Nat) (h : n < u64Mod) : intToU64 (n : Int) = n := by
  unfold intToU64
  rw [Int.emod_eq_of_lt (Int.natCast_nonneg n) (by exact_mod_cast h)]
  exact Int.toNat_natCast n

theorem u64ToI64_small (n : Nat) (h : n < 2 ^ 63) : u64ToI64 n = (n : Int) := by
  have h2 : n % u64Mod = n := Nat.mod_eq_of_lt (lt_trans h (by decide))
  unfold u64ToI64
  rw [h2, if_pos h]

/- Lemmas about byte counts and offsets. -/

@[simp] theorem totalBytes_nil : totalBytes [] = 0 := rfl

@[simp] theorem totalBytes_cons (l : Line) (ls : List Line) :
    totalBytes (l :: ls) = (l.length + 1) + totalBytes ls := by
  simp [totalBytes]

theorem totalBytes_append (l1 l2 : List Line) :
    totalBytes (l1 ++ l2) = totalBytes l1 + totalBytes l2 := by
  simp [totalBytes]

theorem length_le_totalBytes (ls : List Line) : ls.length ≤ totalBytes ls := by
  induction ls with
  | nil => simp
  | cons l ls ih => simp; omega

@[simp] theorem lineOffset_zero (ls : List Line) : lineOffset ls 0 = 0 := rfl

theorem lineOffset_length (ls : List Line) : lineOffset ls ls.length = totalBytes ls := by
  simp [lineOffset]

theorem lineOffset_add_drop (ls : List Line) (k : Nat) :
    lineOffset ls k + totalBytes (ls.drop k) = totalBytes ls := by
  rw [lineOffset, ← totalBytes_append, List.take_append_drop]

theorem lineOffset_le_totalBytes (ls : List Line) (k : Nat) :
    lineOffset ls k ≤ totalBytes ls := by
  have := lineOffset_add_drop ls k
  omega

theorem lineOffset_add (ls : List Line) (b e : Nat) :
    lineOffset ls (b + e) = lineOffset ls b + totalBytes ((ls.drop b).take e) := by
  rw [lineOffset, List.take_add, totalBytes_append]
  rfl

theorem lineOffset_append_left (l1 l2 : List Line) (k : Nat) (h : k ≤ l1.length) :
    lineOffset (l1 ++ l2) k = lineOffset l1 k := by
  rw [lineOffset, lineOffset, List.take_append_of_le_length h]

theorem le_lineOffset (ls : List Line) (k : Nat) (h : k ≤ ls.length) :
    k ≤ lineOffset ls k := by
  have h1 := length_le_totalBytes (ls.take k)
  rwa [List.length_take, Nat.min_eq_left h] at h1

theorem linesFromPos_lineOffset (ls : List Line) :
    ∀ k, linesFromPos ls (lineOffset ls k) = ls.drop k := by
  induction ls with
  | nil => intro k; simp [linesFromPos]
  | cons l rest ih =>
    intro k
    cases k with
    | zero =>
      have h0 := ih 0
      simp only [lineOffset_zero, List.drop_zero] at h0
      simp [linesFromPos, h0]
    | succ k =>
      have hoff : lineOffset (l :: rest) (k + 1) = (l.length + 1) + lineOffset rest k := by
        simp [lineOffset, List.take_succ_cons]
      rw [hoff, linesFromPos]
      rw [if_neg (by omega)]
      have hsub : (l.length + 1) + lineOffset rest k - (l.length + 1) = lineOffset rest k := by
        omega
      rw [hsub, ih k]
      rfl

/- Lemmas about the BTreeMap model. -/

theorem btreeGet_append_of_some (l1 l2 : List (Nat × Nat)) (k v : Nat)
    (h : btreeGet l1 k = some v) : btreeGet (l1 ++ l2) k = some v := by
  induction l1 with
  | nil => simp [btreeGet] at h
  | cons kv l1 ih =>
    rw [List.cons_append]
    rw [btreeGet] at h ⊢
    split at h
    · split
      · exact h
      · simp_all
    · split
      · simp_all
      · exact ih h

theorem btreeGet_append_of_none (l1 l2 : List (Nat × Nat)) (k : Nat)
    (h : btreeGet l1 k = none) : btreeGet (l1 ++ l2) k = btreeGet l2 k := by
  induction l1 with
  | nil => rfl
  | cons kv l1 ih =>
    rw [List.cons_append]
    rw [btreeGet] at h ⊢
    split at h
    · exact absurd h (by simp)
    · split
      · simp_all
      · exact ih h

theorem btreeGet_eq_none (l : List (Nat × Nat)) (k : Nat)
    (h : ∀ kv ∈ l, kv.1 ≠ k) : btreeGet l k = none := by
  induction l with
  | nil => rfl
  | cons kv l ih =>
    have h1 := h kv (by simp)
    rw [btreeGet, if_neg (by omega)]
    exact ih (fun kv2 h2 => h kv2 (by simp [h2]))

theorem btreeInsert_append (l : List (Nat × Nat)) (k v : Nat)
    (h : ∀ kv ∈ l, kv.1 < k) : btreeInsert l k v = l ++ [(k, v)] := by
  induction l with
  | nil => rfl
  | cons kv l ih =>
    have hk := h kv (by simp)
    rw [btreeInsert]
    rw [if_neg (by omega), if_neg (by omega), ih (fun kv2 h2 => h kv2 (by simp [h2]))]
    rfl

theorem max?_append_singleton (l : List Nat) (x : Nat) (h : ∀ y ∈ l, y ≤ x) :
    (l ++ [x]).max? = some x := by
  induction l with
  | nil => rfl
  | cons a l ih =>
    rw [List.cons_append, List.max?_cons, ih (fun y hy => h y (by simp [hy]))]
    simp [Nat.max_eq_right (h a (by simp))]

/- Lemmas about the boundary-entry list recorded by index computation. -/

theorem btreeGet_rangeMap (stream : List Line) (g : Nat) (hg : 0 < g) :
    ∀ M m : Nat, 1 ≤ m → m ≤ M →
      btreeGet ((List.range M).map (fun i => ((i + 1) * g, lineOffset stream ((i + 1) * g))))
        (m * g) = some (lineOffset stream (m * g)) := by
  intro M
  induction M with
  | zero => intro m h1 h2; omega
  | succ M ih =>
    intro m h1 h2
    have hrange : List.range (M + 1) = List.range M ++ [M] := by
      rw [← Nat.succ_eq_add_one]
      exact List.range_succ M
    rw [hrange, List.map_append]
    by_cases hm : m ≤ M
    · exact btreeGet_append_of_some _ _ _ _ (ih m h1 hm)
    · have hm2 : m = M + 1 := by omega
      subst hm2
      rw [btreeGet_append_of_none]
      · simp [btreeGet]
      · apply btreeGet_eq_none
        intro kv hkv
        simp only [List.mem_map, List.mem_range] at hkv
        obtain ⟨i, hi, hkv2⟩ := hkv
        rw [← hkv2]
        intro hcontra
        have : i + 1 = M + 1 := Nat.eq_of_mul_eq_mul_right hg hcontra
        omega

theorem btreeGet_rangeMap_none (stream : List Line) (g : Nat) (M k : Nat)
    (hk : ∀ i, i < M → (i + 1) * g ≠ k) :
    btreeGet ((List.range M).map (fun i => ((i + 1) * g, lineOffset stream ((i + 1) * g))))
      k = none := by
  apply btreeGet_eq_none
  intro kv hkv
  simp only [List.mem_map, List.mem_range] at hkv
  obtain ⟨i, hi, hkv2⟩ := hkv
  rw [← hkv2]
  exact hk i hi

/-- Lookup of a boundary line number in the boundary entries: yields the byte
offset of the start of that line (with the 0-default for the absent key 0). -/
theorem btreeGet_boundaryEntries (stream : List Line) (g b : Nat) (hg : 0 < g)
    (hb : b % g = 0) (hbN : b ≤ stream.length) :
    (btreeGet (boundaryEntries stream g) b).getD 0 = lineOffset stream b := by
  rcases Nat.eq_zero_or_pos b with hb0 | hbpos
  · subst hb0
    rw [boundaryEntries, btreeGet_rangeMap_none stream g _ 0 (fun i _ => by positivity)]
    rfl
  · have hbm : b / g * g = b := Nat.div_mul_cancel (Nat.dvd_of_mod_eq_zero hb)
    have h1 : 1 ≤ b / g := by
      rcases Nat.eq_zero_or_pos (b / g) with h | h
      · rw [h] at hbm; omega
      · exact h
    have h2 : b / g ≤ stream.length / g := Nat.div_le_div_right hbN
    rw [boundaryEntries, ← hbm, btreeGet_rangeMap stream g hg _ _ h1 h2]
    rw [Option.getD_some]

/-- The largest key of the boundary entries is the last boundary. -/
theorem boundaryEntries_last_key (stream : List Line) (g : Nat) (hg : 0 < g)
    (hM : 0 < stream.length / g) :
    ((boundaryEntries stream g).map Prod.fst).max? = some ((stream.length / g) * g) := by
  rw [boundaryEntries]
  obtain ⟨M', hM'⟩ : ∃ M', stream.length / g = M' + 1 := ⟨stream.length / g - 1, by omega⟩
  rw [hM']
  have hrange : List.range (M' + 1) = List.range M' ++ [M'] := by
    rw [← Nat.succ_eq_add_one]
    exact List.range_succ M'
  rw [hrange, List.map_append, List.map_append]
  simp only [List.map_map, List.map_cons, List.map_nil]
  apply max?_append_singleton
  intro y hy
  simp only [List.mem_map, List.mem_range, Function.comp] at hy
  obtain ⟨i, hi, hy2⟩ := hy
  rw [← hy2]
  exact Nat.mul_le_mul_right g (by omega)

theorem boundaryEntries_nil (stream : List Line) (g : Nat) (hM : stream.length / g = 0) :
    boundaryEntries stream g = [] := by
  rw [boundaryEntries, hM]
  rfl

theorem boundaryEntries_key_lt (stream : List Line) (g : Nat) (hg : 0 < g) :
    ∀ kv ∈ boundaryEntries stream g, kv.1 < (stream.length / g) * g + 1 := by
  intro kv hkv
  rw [boundaryEntries] at hkv
  simp only [List.mem_map, List.mem_range] at hkv
  obtain ⟨i, hi, hkv2⟩ := hkv
  rw [← hkv2]
  have : i + 1 ≤ stream.length / g := hi
  have := Nat.mul_le_mul_right g this
  omega

/- Lemmas about the forward-scanning loop. -/

theorem seekForwardLoop_exact (ls : List Line) (n : Nat) (h1 : 1 ≤ n)
    (h2 : n ≤ ls.length) (h3 : n < u64Mod) :
    seekForwardLoop ls n = (n, totalBytes (ls.take n)) := by
  induction ls generalizing n with
  | nil => simp at h2; omega
  | cons l rest ih =>
    rw [seekForwardLoop]
    have hsub : u64sub n 1 = n - 1 := u64sub_eq n 1 h1 h3
    rw [hsub]
    rcases Nat.eq_or_lt_of_le h1 with h | h
    · rw [if_pos (by omega)]
      rw [← h]
      simp
    · rw [if_neg (by omega)]
      rw [ih (n - 1) (by omega) (by simp at h2; omega) (by omega)]
      have hn : n = (n - 1) + 1 := by omega
      rw [hn, List.take_succ_cons]
      simp
      omega

theorem seekForwardLoop_count_le (ls : List Line) (n : Nat) (h1 : 1 ≤ n) (h3 : n < u64Mod) :
    (seekForwardLoop ls n).1 ≤ n := by
  induction ls generalizing n with
  | nil => simp [seekForwardLoop]
  | cons l rest ih =>
    rw [seekForwardLoop]
    have hsub : u64sub n 1 = n - 1 := u64sub_eq n 1 h1 h3
    rw [hsub]
    rcases Nat.eq_or_lt_of_le h1 with h | h
    · rw [if_pos (by omega)]
      omega
    · rw [if_neg (by omega)]
      have := ih (n - 1) (by omega) (by omega)
      simp only []
      omega

/- Lemmas about the index-computation scan. -/

/-- A scan across lines none of which completes a granularity block records no
entry and just accumulates the counters. -/
theorem computeScan_no_insert (g ip : Nat) :
    ∀ (lines : List Line) (pos lc bc : Nat) (idx : List (Nat × Nat)),
      (∀ j, j < lines.length → (pos + j + 1) % g ≠ 0) →
      computeScan g ip lines pos lc bc idx = (idx, lc + lines.length, bc + totalBytes lines) := by
  intro lines
  induction lines with
  | nil => intro pos lc bc idx _; simp [computeScan]
  | cons l rest ih =>
    intro pos lc bc idx h
    rw [computeScan]
    rw [if_neg (by simpa using h 0 (by simp))]
    rw [ih (pos + 1) (lc + 1) (bc + (l.length + 1)) idx
      (fun j hj => by
        have h2 := h (j + 1) (by simp; omega)
        have he : pos + 1 + j + 1 = pos + (j + 1) + 1 := by omega
        rw [he]
        exact h2)]
    simp only [List.length_cons, totalBytes_cons, Prod.mk.injEq]
    exact ⟨trivial, by omega, by omega⟩

/-- Appending one line extends the boundary entries by at most one record. -/
theorem boundaryEntries_snoc (pref : List Line) (l : Line) (g : Nat) (hg : 0 < g) :
    boundaryEntries (pref ++ [l]) g =
      if (pref.length + 1) % g = 0 then
        boundaryEntries pref g ++ [(pref.length + 1, totalBytes (pref ++ [l]))]
      else boundaryEntries pref g := by
  have hlen : (pref ++ [l]).length = pref.length + 1 := by simp
  have hoffeq : ∀ i ∈ List.range (pref.length / g),
      (fun i => ((i + 1) * g, lineOffset (pref ++ [l]) ((i + 1) * g))) i =
      (fun i => ((i + 1) * g, lineOffset pref ((i + 1) * g))) i := by
    intro i hi
    rw [List.mem_range] at hi
    simp only []
    congr 1
    apply lineOffset_append_left
    calc (i + 1) * g ≤ (pref.length / g) * g := Nat.mul_le_mul_right g (by omega)
      _ ≤ pref.length := Nat.div_mul_le_self _ _
  by_cases hdvd : (pref.length + 1) % g = 0
  · rw [if_pos hdvd]
    have hdvd2 : g ∣ pref.length + 1 := Nat.dvd_of_mod_eq_zero hdvd
    have hM : (pref.length + 1) / g = pref.length / g + 1 := by
      rw [Nat.succ_div, if_pos hdvd2]
    have hkey : (pref.length / g + 1) * g = pref.length + 1 := by
      rw [← hM]
      exact Nat.div_mul_cancel hdvd2
    rw [boundaryEntries, hlen, hM, List.range_succ, List.map_append]
    congr 1
    · rw [boundaryEntries]
      exact List.map_congr_left hoffeq
    · simp only [List.map_cons, List.map_nil, hkey]
      rw [← hlen, lineOffset_length]
  · rw [if_neg hdvd]
    have hdvd2 : ¬ g ∣ pref.length + 1 := fun h => hdvd (Nat.mod_eq_zero_of_dvd h)
    have hM : (pref.length + 1) / g = pref.length / g := by
      rw [Nat.succ_div, if_neg hdvd2]
      omega
    rw [boundaryEntries, hlen, hM, boundaryEntries]
    exact List.map_congr_left hoffeq

/-- One full scan from a prefix boundary extends the boundary entries of the
prefix to those of the whole stream. -/
theorem computeScan_fresh (g : Nat) (hg : 0 < g) :
    ∀ (rest pref : List Line),
      computeScan g 0 rest pref.length pref.length (totalBytes pref) (boundaryEntries pref g) =
        (boundaryEntries (pref ++ rest) g, (pref ++ rest).length, totalBytes (pref ++ rest)) := by
  intro rest
  induction rest with
  | nil => intro pref; simp [computeScan]
  | cons l rest ih =>
    intro pref
    have htb : totalBytes (pref ++ [l]) = totalBytes pref + (l.length + 1) := by
      rw [totalBytes_append]; simp
    rw [computeScan]
    simp only [Nat.zero_add]
    have hidx : (if (pref.length + 1) % g = 0 then
          btreeInsert (boundaryEntries pref g) (pref.length + 1) (totalBytes pref + (l.length + 1))
          else boundaryEntries pref g) = boundaryEntries (pref ++ [l]) g := by
      rw [boundaryEntries_snoc pref l g hg]
      by_cases hdvd : (pref.length + 1) % g = 0
      · rw [if_pos hdvd, if_pos hdvd, ← htb]
        apply btreeInsert_append
        intro kv hkv
        have h1 := boundaryEntries_key_lt pref g hg kv hkv
        have h2 : (pref.length / g) * g ≤ pref.length := Nat.div_mul_le_self _ _
        omega
      · rw [if_neg hdvd, if_neg hdvd]
    rw [hidx]
    have h1 : pref.length + 1 = (pref ++ [l]).length := by simp
    have h2 : totalBytes pref + (l.length + 1) = totalBytes (pref ++ [l]) := htb.symm
    rw [h1, h2, ih (pref ++ [l])]
    simp

/-- A computation from the empty index records exactly the boundary entries
and counts the whole stream. -/
theorem compute_fresh (stream : List Line) (g : Nat) (hg : 0 < g) :
    (LinesIndex.new g).compute stream =
      (⟨boundaryEntries stream g, g, stream.length, totalBytes stream⟩,
        stream.length, totalBytes stream) := by
  have hbe : boundaryEntries ([] : List Line) g = [] := by
    simp [boundaryEntries]
  have h0 := computeScan_fresh g hg stream []
  rw [hbe] at h0
  simp only [List.nil_append, List.length_nil, totalBytes_nil] at h0
  have hlfp : linesFromPos stream 0 = stream := by
    have h := linesFromPos_lineOffset stream 0
    simpa using h
  rw [LinesIndex.compute]
  simp only [LinesIndex.new, LinesIndex.last_indexed_pos, LinesIndex.byte_count_at_pos,
    List.map_nil, List.max?_nil, Option.getD_none, btreeGet, hlfp]
  rw [if_neg (by omega), h0]
  simp

/-- Recomputing over an unchanged stream whose index already holds the
boundary entries leaves the entries unchanged (though not necessarily the
counts) and leaves the reader at the end of the stream. -/
theorem compute_stable (stream : List Line) (g lc bc : Nat) (hg : 0 < g) :
    ∃ lc2 bc2,
      (⟨boundaryEntries stream g, g, lc, bc⟩ : LinesIndex).compute stream =
        (⟨boundaryEntries stream g, g, lc2, bc2⟩, lc2, totalBytes stream) := by
  rcases Nat.eq_zero_or_pos (stream.length / g) with hM | hM
  · have hbe := boundaryEntries_nil stream g hM
    refine ⟨stream.length, totalBytes stream, ?_⟩
    have hsame : (⟨boundaryEntries stream g, g, lc, bc⟩ : LinesIndex).compute stream =
        (LinesIndex.new g).compute stream := by
      rw [hbe]; rfl
    rw [hsame, compute_fresh stream g hg]
  · have hBle : (stream.length / g) * g ≤ stream.length := Nat.div_mul_le_self _ _
    have hBmod : ((stream.length / g) * g) % g = 0 := Nat.mul_mod_left _ _
    have hlook := btreeGet_boundaryEntries stream g ((stream.length / g) * g) hg hBmod hBle
    have hBpos : 0 < (stream.length / g) * g := Nat.mul_pos hM hg
    have hoffpos : 0 < lineOffset stream ((stream.length / g) * g) :=
      lt_of_lt_of_le hBpos (le_lineOffset stream _ hBle)
    have hlast := boundaryEntries_last_key stream g hg hM
    refine ⟨(stream.length / g) * g + (stream.length - ((stream.length / g) * g + 1)),
      lineOffset stream ((stream.length / g) * g) +
        totalBytes (stream.drop ((stream.length / g) * g + 1)), ?_⟩
    rw [LinesIndex.compute]
    simp only [LinesIndex.last_indexed_pos, LinesIndex.byte_count_at_pos]
    rw [hlast]
    simp only [Option.getD_some]
    rw [hlook, linesFromPos_lineOffset stream ((stream.length / g) * g)]
    rw [if_pos hoffpos]
    rw [List.drop_drop]
    rw [computeScan_no_insert g _ _ _ _ _ _ ?hcond]
    case hcond =>
      intro j hj
      rw [List.length_drop] at hj
      have hmod : stream.length % g < g := Nat.mod_lt _ hg
      have hdm := Nat.div_add_mod stream.length g
      have hcomm : g * (stream.length / g) = stream.length / g * g := Nat.mul_comm _ _
      have : j + 1 < g := by omega
      rw [Nat.zero_add, Nat.mod_eq_of_lt this]
      omega
    rw [List.length_drop]
    simp only []
    congr 2
    · exact Nat.max_eq_right (lineOffset_le_totalBytes _ _)

/- Seek-level helper lemmas. -/

theorem compute_index_pos (r : IndexedLineReader) : (r.compute_index).1.pos = r.pos := rfl

theorem compute_index_granularity (r : IndexedLineReader) :
    (r.compute_index).1.index.granularity = r.index.granularity := rfl

theorem compute_index_stream (r : IndexedLineReader) :
    (r.compute_index).1.stream = r.stream := rfl

theorem seek_to_index_index (r : IndexedLineReader) (i : Nat) :
    (r.seek_to_index i).1.index = r.index := rfl

theorem seek_to_index_pos (r : IndexedLineReader) (i : Nat) :
    (r.seek_to_index i).1.pos = i := rfl

theorem seek_to_index_stream (r : IndexedLineReader) (i : Nat) :
    (r.seek_to_index i).1.stream = r.stream := rfl

theorem seek_to_closest_index_Start (r : IndexedLineReader) (p : Nat) :
    r.seek_to_closest_index (.Start p) =
      r.seek_to_index (u64sub p (p % r.index.granularity)) := by
  rw [IndexedLineReader.seek_to_closest_index]

theorem seek_to_closest_index_Current (r : IndexedLineReader) (p : Int) :
    r.seek_to_closest_index (.Current p) =
      r.seek_to_index (u64sub (u64sub r.pos (r.pos % r.index.granularity) + intToU64 p)
        (intToU64 p % r.index.granularity)) := by
  rw [IndexedLineReader.seek_to_closest_index]

/-- The tail-call equation of the source's `End` branch of
`seek_to_closest_index`. -/
theorem seek_to_closest_index_End (r : IndexedLineReader) (p : Int) :
    r.seek_to_closest_index (.End p) =
      r.seek_to_closest_index (.Start (u64sub r.line_count p.natAbs)) := rfl

/-- Forward scan of `n` whole lines from the start of line `cb`: consumes
exactly `n` lines and lands at the start of line `cb + n`. -/
theorem seek_forward_exact (r : IndexedLineReader) (stream : List Line) (cb n : Nat)
    (hstream : r.stream = stream) (hsp : r.streamPos = lineOffset stream cb)
    (h1 : 1 ≤ n) (h2 : cb + n ≤ stream.length) (h3 : n < u64Mod) :
    r.seek_forward n =
      ({ r with pos := r.pos + n, streamPos := lineOffset stream (cb + n) },
        totalBytes ((stream.drop cb).take n), n) := by
  rw [IndexedLineReader.seek_forward, hstream, hsp, linesFromPos_lineOffset]
  rw [seekForwardLoop_exact _ n h1 (by rw [List.length_drop]; omega) h3]
  rw [lineOffset_add]

/-- A non-negative `Current` seek on a reader at line `a` whose index
computation yields the boundary entries of its stream: lands on line `b`,
positioning the stream at the byte offset of line `b`, scanning at most
`(b - a) % g + a % g` lines. -/
theorem seekCore_current_nonneg_stable (stream : List Line) (g : Nat) (r : IndexedLineReader)
    (a b f : Nat) (hg : 0 < g) (hN : stream.length < 2 ^ 63) (hab : a ≤ b)
    (hb : b ≤ stream.length) (hstream : r.stream = stream) (hpos : r.pos = a)
    (hC : ∃ L B, r.index.compute stream =
      (⟨boundaryEntries stream g, g, L, B⟩, L, totalBytes stream)) :
    ∃ L2 B2 v s, r.seekCore (f + 1) (.Current ((b : Int) - (a : Int))) =
      some (⟨⟨boundaryEntries stream g, g, L2, B2⟩, b, L2, stream, lineOffset stream b⟩,
        v, s) ∧ s ≤ (b - a) % g + a % g := by
  obtain ⟨L, B, hC⟩ := hC
  have hc1 : r.compute_index =
      (⟨⟨boundaryEntries stream g, g, L, B⟩, r.pos, L, stream, totalBytes stream⟩, L) := by
    rw [IndexedLineReader.compute_index, hstream, hC]
  have hbM : b < u64Mod := lt_trans (lt_of_le_of_lt hb hN) (by decide)
  have hint : intToU64 ((b : Int) - (a : Int)) = b - a := by
    have he : ((b : Int) - (a : Int)) = ((b - a : Nat) : Int) := by omega
    rw [he, intToU64_ofNat _ (by omega)]
  have hprev : u64sub a (a % g) = a - a % g := u64sub_eq _ _ (Nat.mod_le _ _) (by omega)
  have hdam_a := Nat.div_add_mod a g
  have hdam_d := Nat.div_add_mod (b - a) g
  have hmodlt_a : a % g < g := Nat.mod_lt a hg
  have hmodlt_d : (b - a) % g < g := Nat.mod_lt _ hg
  have hmodle_a : a % g ≤ a := Nat.mod_le _ _
  have hmodle_d : (b - a) % g ≤ b - a := Nat.mod_le _ _
  have hcb : u64sub (a - a % g + (b - a)) ((b - a) % g) =
      a - a % g + (b - a) - (b - a) % g :=
    u64sub_eq _ _ (by omega) (by omega)
  have hcb_decomp : a - a % g + (b - a) - (b - a) % g =
      g * (a / g) + g * ((b - a) / g) := by
    omega
  have hcbmod : (a - a % g + (b - a) - (b - a) % g) % g = 0 := by
    rw [hcb_decomp, ← Nat.mul_add]
    exact Nat.mul_mod_right g _
  have hcble : a - a % g + (b - a) - (b - a) % g ≤ stream.length := by omega
  have hlook : (btreeGet (boundaryEntries stream g)
        (a - a % g + (b - a) - (b - a) % g)).getD 0
      = lineOffset stream (a - a % g + (b - a) - (b - a) % g) :=
    btreeGet_boundaryEntries stream g _ hg hcbmod hcble
  rw [IndexedLineReader.seekCore, hc1]
  rw [if_pos (by omega)]
  simp only [hint, hpos, seek_to_closest_index_Current, IndexedLineReader.seek_to_index,
    LinesIndex.byte_count_at_pos, hprev, hcb, hlook]
  by_cases hzero : 0 < (b - a) % g + a % g
  · rw [if_pos hzero]
    rw [seek_forward_exact _ stream (a - a % g + (b - a) - (b - a) % g)
      ((b - a) % g + a % g) rfl rfl (by omega) (by omega) (by omega)]
    dsimp only
    have hcbn : (a - a % g + (b - a) - (b - a) % g) + ((b - a) % g + a % g) = b := by
      omega
    rw [hcbn]
    exact ⟨L, B, _, (b - a) % g + a % g, rfl, le_refl _⟩
  · rw [if_neg hzero]
    have hcbb : a - a % g + (b - a) - (b - a) % g = b := by omega
    refine ⟨L, B, lineOffset stream (a - a % g + (b - a) - (b - a) % g), 0, ?_, by omega⟩
    rw [hcbb]

/-- A `Start` seek on a reader whose index computation yields the boundary
entries of its stream: lands on line `k`, positioning the stream at the byte
offset of line `k`. -/
theorem seekCore_start_stable (stream : List Line) (g : Nat) (r : IndexedLineReader)
    (k f : Nat) (hg : 0 < g) (hN : stream.length < 2 ^ 63) (hk : k ≤ stream.length)
    (hstream : r.stream = stream)
    (hC : ∃ L B, r.index.compute stream =
      (⟨boundaryEntries stream g, g, L, B⟩, L, totalBytes stream)) :
    ∃ L2 B2 v s, r.seekCore (f + 2) (.Start k) =
      some (⟨⟨boundaryEntries stream g, g, L2, B2⟩, k, L2, stream, lineOffset stream k⟩,
        v, s) ∧ s ≤ k % g := by
  obtain ⟨L, B, hC⟩ := hC
  have hc1 : r.compute_index =
      (⟨⟨boundaryEntries stream g, g, L, B⟩, r.pos, L, stream, totalBytes stream⟩, L) := by
    rw [IndexedLineReader.compute_index, hstream, hC]
  have hkM : k < u64Mod := lt_trans (lt_of_le_of_lt hk hN) (by decide)
  have hmodle : k % g ≤ k := Nat.mod_le k g
  have hmodlt : k % g < g := Nat.mod_lt k hg
  have hbdy : u64sub k (k % g) = k - k % g := u64sub_eq _ _ hmodle hkM
  have hdam := Nat.div_add_mod k g
  have hbmod : (k - k % g) % g = 0 := by
    have h2 : k - k % g = g * (k / g) := by omega
    rw [h2]
    exact Nat.mul_mod_right g _
  have hble : k - k % g ≤ stream.length := le_trans (Nat.sub_le _ _) hk
  have hlook : (btreeGet (boundaryEntries stream g) (k - k % g)).getD 0 =
      lineOffset stream (k - k % g) := btreeGet_boundaryEntries stream g _ hg hbmod hble
  rw [show f + 2 = f + 1 + 1 from rfl, IndexedLineReader.seekCore, hc1]
  simp only [seek_to_closest_index_Start, IndexedLineReader.seek_to_index,
    LinesIndex.byte_count_at_pos, hbdy, hlook]
  by_cases hextra : 0 < k % g
  · rw [if_pos hextra]
    have hcast : u64ToI64 (k % g) = (k : Int) - ((k - k % g : Nat) : Int) := by
      rw [u64ToI64_small _ (by omega)]
      omega
    rw [hcast]
    obtain ⟨lc2, bc2, hC2⟩ := compute_stable stream g L B hg
    obtain ⟨L2, B2, v, s2, hseek2, hs2⟩ := seekCore_current_nonneg_stable stream g
      ⟨⟨boundaryEntries stream g, g, L, B⟩, k - k % g, L, stream,
        lineOffset stream (k - k % g)⟩
      (k - k % g) k f hg hN (Nat.sub_le _ _) hk rfl rfl ⟨lc2, bc2, hC2⟩
    refine ⟨L2, B2, v, s2, hseek2, ?_⟩
    have he1 : k - (k - k % g) = k % g := by omega
    rw [he1, hbmod, Nat.mod_eq_of_lt hmodlt] at hs2
    omega
  · rw [if_neg hextra]
    have hk0 : k % g = 0 := by omega
    refine ⟨L, B, lineOffset stream (k - k % g), 0, ?_, by omega⟩
    rw [hk0]
    simp

/-- The first computation on a fresh reader produces the boundary entries. -/
theorem new_reader_hC (stream : List Line) (g : Nat) (hg : 0 < g) :
    ∃ L B, (IndexedLineReader.new stream g).index.compute stream =
      (⟨boundaryEntries stream g, g, L, B⟩, L, totalBytes stream) :=
  ⟨stream.length, totalBytes stream, compute_fresh stream g hg⟩

/-- The state of a fresh reader after one explicit index computation. -/
theorem computed_reader_eq (stream : List Line) (g : Nat) (hg : 0 < g) :
    (IndexedLineReader.new stream g).compute_index =
      (⟨⟨boundaryEntries stream g, g, stream.length, totalBytes stream⟩, 0, stream.length,
        stream, totalBytes stream⟩, stream.length) := by
  rw [IndexedLineReader.compute_index]
  rw [show (IndexedLineReader.new stream g).index.compute (IndexedLineReader.new stream g).stream
    = (LinesIndex.new g).compute stream from rfl, compute_fresh stream g hg]
  rfl

/-- Any reader whose index holds the boundary entries recomputes to boundary
entries. -/
theorem stable_reader_hC (stream : List Line) (g L B : Nat) (hg : 0 < g)
    (r : IndexedLineReader) (hidx : r.index = ⟨boundaryEntries stream g, g, L, B⟩) :
    ∃ L2 B2, r.index.compute stream =
      (⟨boundaryEntries stream g, g, L2, B2⟩, L2, totalBytes stream) := by
  rw [hidx]
  exact compute_stable stream g L B hg

/-- A negative `Current` seek on a reader at line `a` whose index computation
yields the boundary entries: reduces to `Start (a - |delta|)` and lands on
line `b`. -/
theorem seekCore_current_neg_stable (stream : List Line) (g : Nat) (r : IndexedLineReader)
    (a b f : Nat) (hg : 0 < g) (hN : stream.length < 2 ^ 63) (hba : b ≤ a)
    (ha : a ≤ stream.length) (hstream : r.stream = stream) (hpos : r.pos = a)
    (hneg : (b : Int) - (a : Int) < 0)
    (hC : ∃ L B, r.index.compute stream =
      (⟨boundaryEntries stream g, g, L, B⟩, L, totalBytes stream)) :
    ∃ L2 B2 v s, r.seekCore (f + 3) (.Current ((b : Int) - (a : Int))) =
      some (⟨⟨boundaryEntries stream g, g, L2, B2⟩, b, L2, stream, lineOffset stream b⟩,
        v, s) ∧ s ≤ b % g := by
  obtain ⟨L, B, hC⟩ := hC
  have hc1 : r.compute_index =
      (⟨⟨boundaryEntries stream g, g, L, B⟩, r.pos, L, stream, totalBytes stream⟩, L) := by
    rw [IndexedLineReader.compute_index, hstream, hC]
  have habs : ((b : Int) - (a : Int)).natAbs = a - b := by omega
  have hsub : u64sub a (a - b) = b := by
    rw [u64sub_eq a (a - b) (Nat.sub_le _ _) (by
      have : (2 : Nat) ^ 63 < u64Mod := by decide
      omega)]
    omega
  rw [show f + 3 = f + 2 + 1 from rfl, IndexedLineReader.seekCore, hc1]
  rw [if_neg (by omega)]
  dsimp only
  rw [hpos, habs, hsub]
  obtain ⟨L2, B2, v, s, hseek, hs⟩ := seekCore_start_stable stream g
    ⟨⟨boundaryEntries stream g, g, L, B⟩, a, L, stream, totalBytes stream⟩ b f hg hN
    (le_trans hba ha) rfl (stable_reader_hC stream g L B hg _ rfl)
  exact ⟨L2, B2, v, s, hseek, hs⟩

/- Fuel irrelevance: a non-negative `Current` seek uses no recursion, and a
`Start` seek only one level of it, so any fuel at least the recursion depth
gives the same result. -/

theorem seekCore_current_nonneg_fuel (r : IndexedLineReader) (q : Int) (hq : 0 ≤ q)
    (f1 f2 : Nat) :
    r.seekCore (f1 + 1) (.Current q) = r.seekCore (f2 + 1) (.Current q) := by
  rw [IndexedLineReader.seekCore]
  rw [IndexedLineReader.seekCore]
  rw [if_pos hq, if_pos hq]

theorem seekCore_start_fuel (r : IndexedLineReader) (p : Nat) (f1 f2 : Nat)
    (hg : 0 < r.index.granularity) (hg2 : r.index.granularity ≤ 2 ^ 63) :
    r.seekCore (f1 + 1 + 1) (.Start p) = r.seekCore (f2 + 1 + 1) (.Start p) := by
  rw [IndexedLineReader.seekCore]
  rw [IndexedLineReader.seekCore]
  have hgg : (r.compute_index).1.index.granularity = r.index.granularity :=
    compute_index_granularity r
  by_cases hx : 0 < p % (r.compute_index).1.index.granularity
  · rw [if_pos hx, if_pos hx]
    have hlt : p % (r.compute_index).1.index.granularity < 2 ^ 63 := by
      have h1 : p % (r.compute_index).1.index.granularity < (r.compute_index).1.index.granularity :=
        Nat.mod_lt _ (by omega)
      omega
    have hcast := u64ToI64_small _ hlt
    rw [hcast]
    exact seekCore_current_nonneg_fuel _ _ (Int.natCast_nonneg _) f1 f2
  · rw [if_neg hx, if_neg hx]

/- Scan-cost bounds for arbitrary reader states. -/

theorem two_pow_63_lt_u64Mod : (2 : Nat) ^ 63 < u64Mod := by decide

theorem seek_forward_count_le (w : IndexedLineReader) (n : Nat) (h1 : 1 ≤ n)
    (h3 : n < u64Mod) : (w.seek_forward n).2.2 ≤ n := by
  rw [IndexedLineReader.seek_forward]
  exact seekForwardLoop_count_le _ n h1 h3

/-- The forward scan performed by a `Start` seek covers at most
`granularity - 1` lines. -/
theorem seekCore_start_scan_le (r : IndexedLineReader) (p f : Nat)
    (x : IndexedLineReader × Nat × Nat)
    (hg : 0 < r.index.granularity) (hg2 : r.index.granularity ≤ 2 ^ 63) (hp : p < u64Mod)
    (hx : r.seekCore (f + 2) (.Start p) = some x) :
    x.2.2 ≤ r.index.granularity - 1 := by
  have h63 := two_pow_63_lt_u64Mod
  rw [show f + 2 = f + 1 + 1 from rfl, IndexedLineReader.seekCore] at hx
  simp only [compute_index_granularity] at hx
  by_cases hextra : 0 < p % r.index.granularity
  · rw [if_pos hextra] at hx
    have hmodlt : p % r.index.granularity < r.index.granularity := Nat.mod_lt _ hg
    have hcast := u64ToI64_small (p % r.index.granularity) (by omega)
    rw [hcast] at hx
    rw [IndexedLineReader.seekCore] at hx
    rw [if_pos (Int.natCast_nonneg _)] at hx
    have hint : intToU64 ((p % r.index.granularity : Nat) : Int) = p % r.index.granularity :=
      intToU64_ofNat _ (by omega)
    simp only [hint, compute_index_granularity, compute_index_pos,
      seek_to_closest_index_Start, seek_to_index_index, seek_to_index_pos] at hx
    have hmm : p % r.index.granularity % r.index.granularity = p % r.index.granularity :=
      Nat.mod_eq_of_lt hmodlt
    rw [hmm] at hx
    have hbsub : u64sub p (p % r.index.granularity) = p - p % r.index.granularity :=
      u64sub_eq _ _ (Nat.mod_le _ _) hp
    rw [hbsub] at hx
    have hb0 : (p - p % r.index.granularity) % r.index.granularity = 0 := by
      have hdam := Nat.div_add_mod p r.index.granularity
      have h2 : p - p % r.index.granularity =
          r.index.granularity * (p / r.index.granularity) := by
        omega
      rw [h2]
      exact Nat.mul_mod_right _ _
    rw [hb0] at hx
    rw [if_pos (by omega)] at hx
    have hx2 := Option.some.inj hx
    rw [← hx2]
    dsimp only
    exact le_trans (seek_forward_count_le _ _ (by omega) (by omega)) (by omega)
  · rw [if_neg hextra] at hx
    have hx2 := Option.some.inj hx
    rw [← hx2]
    dsimp only
    exact Nat.zero_le _

/-- The forward scan performed by a non-negative `Current` seek covers at most
`2 * (granularity - 1)` lines. -/
theorem seekCore_current_nonneg_scan_le (r : IndexedLineReader) (q : Int) (f : Nat)
    (x : IndexedLineReader × Nat × Nat)
    (hg : 0 < r.index.granularity) (hg2 : r.index.granularity ≤ 2 ^ 63) (hq : 0 ≤ q)
    (hx : r.seekCore (f + 1) (.Current q) = some x) :
    x.2.2 ≤ 2 * (r.index.granularity - 1) := by
  have h63 := two_pow_63_lt_u64Mod
  have hM : u64Mod = 2 ^ 64 := rfl
  rw [IndexedLineReader.seekCore] at hx
  rw [if_pos hq] at hx
  simp only [compute_index_granularity, compute_index_pos] at hx
  have hm1 : intToU64 q % r.index.granularity < r.index.granularity := Nat.mod_lt _ hg
  have hm2 : r.pos % r.index.granularity < r.index.granularity := Nat.mod_lt _ hg
  by_cases hzero : 0 < intToU64 q % r.index.granularity + r.pos % r.index.granularity
  · rw [if_pos hzero] at hx
    have hx2 := Option.some.inj hx
    rw [← hx2]
    dsimp only
    exact le_trans (seek_forward_count_le _ _ (by omega) (by omega)) (by omega)
  · rw [if_neg hzero] at hx
    have hx2 := Option.some.inj hx
    rw [← hx2]
    dsimp only
    exact Nat.zero_le _

/- One-step unfolding equations for the reducing seek cases. -/

theorem seekCore_end (r : IndexedLineReader) (p : Int) (f : Nat) :
    r.seekCore (f + 1) (.End p) =
      ((r.compute_index).1).seekCore f
        (.Start (u64sub ((r.compute_index).1).line_count p.natAbs)) := by
  rw [IndexedLineReader.seekCore]

theorem seekCore_current_neg (r : IndexedLineReader) (p : Int) (f : Nat) (hp : ¬ 0 ≤ p) :
    r.seekCore (f + 1) (.Current p) =
      ((r.compute_index).1).seekCore f
        (.Start (u64sub ((r.compute_index).1).pos p.natAbs)) := by
  rw [IndexedLineReader.seekCore, if_neg hp]

/- The claims. -/

/-- C1: round-trip of indexing and seeking.  For every stream of
newline-terminated lines and positive granularity, once `compute` has been
run, seeking with `Start k` for any `k` below the line count succeeds,
repositions the stream so that the next lines read are exactly the lines from
`k` on (the stream position is the byte offset of line `k`), and sets the
cursor's current line position to `k`. -/
theorem C1_round_trip (stream : List Line) (g k : Nat) (hg : 0 < g)
    (hN : stream.length < 2 ^ 63) (hk : k < stream.length) :
    ∃ x, ((IndexedLineReader.new stream g).compute_index.1).seek (.Start k) = some x ∧
      x.1.pos = k ∧ x.1.streamPos = lineOffset stream k ∧
      linesFromPos x.1.stream x.1.streamPos = stream.drop k := by
  have hcomp := computed_reader_eq stream g hg
  have hidx : ((IndexedLineReader.new stream g).compute_index.1).index =
      ⟨boundaryEntries stream g, g, stream.length, totalBytes stream⟩ := by
    rw [hcomp]
  have hstr : ((IndexedLineReader.new stream g).compute_index.1).stream = stream := by
    rw [hcomp]
  obtain ⟨L2, B2, v, s, hseek, _⟩ := seekCore_start_stable stream g
    ((IndexedLineReader.new stream g).compute_index.1) k 1 hg hN (le_of_lt hk) hstr
    (stable_reader_hC stream g stream.length (totalBytes stream) hg _ hidx)
  refine ⟨(⟨⟨boundaryEntries stream g, g, L2, B2⟩, k, L2, stream, lineOffset stream k⟩, v),
    ?_, rfl, rfl, ?_⟩
  · rw [IndexedLineReader.seek, show (3 : Nat) = 1 + 2 from rfl, hseek]
    rfl
  · exact linesFromPos_lineOffset stream k

/-- Witness for C1 at a concrete input: stream of four one-byte lines,
granularity 2, target line 3. -/
theorem C1_round_trip_witness :
    (0 < 2 ∧ exStream4.length < 2 ^ 63 ∧ 3 < exStream4.length) ∧
    (∃ x, ((IndexedLineReader.new exStream4 2).compute_index.1).seek (.Start 3) = some x ∧
      x.1.pos = 3 ∧ x.1.streamPos = lineOffset exStream4 3 ∧
      linesFromPos x.1.stream x.1.streamPos = exStream4.drop 3) :=
  ⟨⟨by decide, by decide, by decide⟩,
    C1_round_trip exStream4 2 3 (by decide) (by decide) (by decide)⟩

/-- C7: composability of seeks.  From a fresh reader, seeking `Start a` and
then `Current (b - a)` lands the cursor on the same line, with the same
stream position, as seeking `Start b` directly. -/
theorem C7_composability (stream : List Line) (g a b : Nat) (hg : 0 < g)
    (hN : stream.length < 2 ^ 63) (ha : a ≤ stream.length) (hb : b ≤ stream.length) :
    ∃ x y z,
      (IndexedLineReader.new stream g).seek (.Start a) = some x ∧
      x.1.seek (.Current ((b : Int) - (a : Int))) = some y ∧
      (IndexedLineReader.new stream g).seek (.Start b) = some z ∧
      y.1.pos = z.1.pos ∧ y.1.streamPos = z.1.streamPos := by
  have hCnew := new_reader_hC stream g hg
  obtain ⟨Lz, Bz, vz, sz, hseekz, _⟩ := seekCore_start_stable stream g
    (IndexedLineReader.new stream g) b 1 hg hN hb rfl hCnew
  obtain ⟨La, Ba, va, sa, hseeka, _⟩ := seekCore_start_stable stream g
    (IndexedLineReader.new stream g) a 1 hg hN ha rfl hCnew
  have hCx1 := stable_reader_hC stream g La Ba hg
    (⟨⟨boundaryEntries stream g, g, La, Ba⟩, a, La, stream, lineOffset stream a⟩ :
      IndexedLineReader) rfl
  by_cases hab : a ≤ b
  · obtain ⟨Ly, By, vy, sy, hseeky, _⟩ := seekCore_current_nonneg_stable stream g
      (⟨⟨boundaryEntries stream g, g, La, Ba⟩, a, La, stream, lineOffset stream a⟩ :
        IndexedLineReader) a b 2 hg hN hab hb rfl rfl hCx1
    refine ⟨(⟨⟨boundaryEntries stream g, g, La, Ba⟩, a, La, stream, lineOffset stream a⟩, va),
      (⟨⟨boundaryEntries stream g, g, Ly, By⟩, b, Ly, stream, lineOffset stream b⟩, vy),
      (⟨⟨boundaryEntries stream g, g, Lz, Bz⟩, b, Lz, stream, lineOffset stream b⟩, vz),
      ?_, ?_, ?_, rfl, rfl⟩
    · rw [IndexedLineReader.seek, show (3 : Nat) = 1 + 2 from rfl, hseeka]
      rfl
    · rw [IndexedLineReader.seek, show (3 : Nat) = 2 + 1 from rfl, hseeky]
      rfl
    · rw [IndexedLineReader.seek, show (3 : Nat) = 1 + 2 from rfl, hseekz]
      rfl
  · obtain ⟨Ly, By, vy, sy, hseeky, _⟩ := seekCore_current_neg_stable stream g
      (⟨⟨boundaryEntries stream g, g, La, Ba⟩, a, La, stream, lineOffset stream a⟩ :
        IndexedLineReader) a b 0 hg hN (by omega) ha rfl rfl (by omega) hCx1
    refine ⟨(⟨⟨boundaryEntries stream g, g, La, Ba⟩, a, La, stream, lineOffset stream a⟩, va),
      (⟨⟨boundaryEntries stream g, g, Ly, By⟩, b, Ly, stream, lineOffset stream b⟩, vy),
      (⟨⟨boundaryEntries stream g, g, Lz, Bz⟩, b, Lz, stream, lineOffset stream b⟩, vz),
      ?_, ?_, ?_, rfl, rfl⟩
    · rw [IndexedLineReader.seek, show (3 : Nat) = 1 + 2 from rfl, hseeka]
      rfl
    · rw [IndexedLineReader.seek, show (3 : Nat) = 0 + 3 from rfl, hseeky]
      rfl
    · rw [IndexedLineReader.seek, show (3 : Nat) = 1 + 2 from rfl, hseekz]
      rfl

/-- Witness for C7 at a concrete input: four one-byte lines, granularity 2,
`a = 3`, `b = 1` (a backward relative seek). -/
theorem C7_composability_witness :
    (0 < 2 ∧ exStream4.length < 2 ^ 63 ∧ 3 ≤ exStream4.length ∧ 1 ≤ exStream4.length) ∧
    (∃ x y z,
      (IndexedLineReader.new exStream4 2).seek (.Start 3) = some x ∧
      x.1.seek (.Current ((1 : Int) - (3 : Int))) = some y ∧
      (IndexedLineReader.new exStream4 2).seek (.Start 1) = some z ∧
      y.1.pos = z.1.pos ∧ y.1.streamPos = z.1.streamPos) :=
  ⟨⟨by decide, by decide, by decide, by decide⟩,
    C7_composability exStream4 2 3 1 (by decide) (by decide) (by decide) (by decide)⟩

/-- C8: an `End n` seek reduces to `Start (total_lines - |n|)` where
`total_lines` is the reader's line count right after the recomputation the
seek performs, and the sign of `n` is ignored: `End n` and `End (-n)` are the
same seek. -/
theorem C8_end_seek (r : IndexedLineReader) (n : Int)
    (hg : 0 < r.index.granularity) (hg2 : r.index.granularity ≤ 2 ^ 63)
    (hn : n.natAbs ≤ (r.compute_index).1.line_count)
    (hlc : (r.compute_index).1.line_count < u64Mod) :
    r.seek (.End n) = r.seek (.End (-n)) ∧
    r.seek (.End n) =
      ((r.compute_index).1).seek
        (.Start ((r.compute_index).1.line_count - n.natAbs)) := by
  have hgpos : 0 < ((r.compute_index).1).index.granularity := by
    rw [compute_index_granularity]
    exact hg
  have hgle : ((r.compute_index).1).index.granularity ≤ 2 ^ 63 := by
    rw [compute_index_granularity]
    exact hg2
  have hu : u64sub ((r.compute_index).1).line_count n.natAbs =
      (r.compute_index).1.line_count - n.natAbs := u64sub_eq _ _ hn hlc
  constructor
  · rw [IndexedLineReader.seek, IndexedLineReader.seek]
    congr 1
    rw [show (3 : Nat) = 2 + 1 from rfl]
    rw [seekCore_end r n 2, seekCore_end r (-n) 2, Int.natAbs_neg]
  · rw [IndexedLineReader.seek, IndexedLineReader.seek]
    congr 1
    rw [show (3 : Nat) = 2 + 1 from rfl]
    rw [seekCore_end r n 2, hu]
    exact seekCore_start_fuel _ _ 0 1 hgpos hgle

/-- Witness for C8 at a concrete input: four one-byte lines, granularity 2,
`n = 1`. -/
theorem C8_end_seek_witness :
    (0 < exReader4.index.granularity ∧ exReader4.index.granularity ≤ 2 ^ 63 ∧
      (1 : Int).natAbs ≤ (exReader4.compute_index).1.line_count ∧
      (exReader4.compute_index).1.line_count < u64Mod) ∧
    (exReader4.seek (.End 1) = exReader4.seek (.End (-1)) ∧
      exReader4.seek (.End 1) =
        ((exReader4.compute_index).1).seek
          (.Start ((exReader4.compute_index).1.line_count - (1 : Int).natAbs))) :=
  ⟨⟨by decide, by decide, by decide, by decide⟩,
    C8_end_seek exReader4 1 (by decide) (by decide) (by decide) (by decide)⟩

/-- C6 counterexample: with granularity 2 on a 4-line stream, a `Current 1`
seek issued at line 1 scans 2 lines even though the boundary lookup lands on
a boundary-aligned position, exceeding `granularity - 1 = 1`.  The claim that
the line-scanning cost of any single seek never exceeds `granularity - 1` is
therefore false. -/
theorem C6_counterexample :
    ((exReader4.seek (.Start 1)).bind (fun x => x.1.seekScanned (.Current 1))) = some 2 ∧
    ¬ (2 ≤ exReader4.index.granularity - 1) := by decide

/-- C6 (amended): the line-scanning cost of a single seek never exceeds
`2 * (granularity - 1)` lines; for `Start`, `End` and negative `Current`
requests it never exceeds `granularity - 1` lines.  (A non-negative
`Current delta` seek scans `delta % g` plus `current_line % g` lines, and the
second summand need not be zero.) -/
theorem C6_scan_bound (r : IndexedLineReader) (sf : SeekFrom) (s : Nat)
    (hg : 0 < r.index.granularity) (hg2 : r.index.granularity ≤ 2 ^ 63)
    (hr : ∀ q : Nat, sf = .Start q → q < u64Mod)
    (hs : r.seekScanned sf = some s) :
    s ≤ 2 * (r.index.granularity - 1) ∧
      (∀ q : Nat, sf = .Start q → s ≤ r.index.granularity - 1) ∧
      (∀ q : Int, sf = .End q → s ≤ r.index.granularity - 1) ∧
      (∀ q : Int, sf = .Current q → q < 0 → s ≤ r.index.granularity - 1) := by
  rw [IndexedLineReader.seekScanned] at hs
  cases hxo : r.seekCore 3 sf with
  | none =>
    rw [hxo] at hs
    simp at hs
  | some x =>
    rw [hxo] at hs
    simp only [Option.map_some'] at hs
    have hs2 := Option.some.inj hs
    cases sf with
    | Start p =>
      have hp := hr p rfl
      have hb := seekCore_start_scan_le r p 1 x hg hg2 hp hxo
      exact ⟨by omega, fun q hq => by omega, fun q hq => SeekFrom.noConfusion hq,
        fun q hq => SeekFrom.noConfusion hq⟩
    | Current p =>
      by_cases hp : 0 ≤ p
      · have hb := seekCore_current_nonneg_scan_le r p 2 x hg hg2 hp hxo
        refine ⟨by omega, fun q hq => SeekFrom.noConfusion hq,
          fun q hq => SeekFrom.noConfusion hq, fun q hq hq2 => ?_⟩
        injection hq with hpq
        omega
      · rw [show (3 : Nat) = 2 + 1 from rfl, seekCore_current_neg r p 2 hp] at hxo
        have hb := seekCore_start_scan_le ((r.compute_index).1) _ 0 x
          (by rw [compute_index_granularity]; exact hg)
          (by rw [compute_index_granularity]; exact hg2) (u64sub_lt _ _) hxo
        rw [compute_index_granularity] at hb
        exact ⟨by omega, fun q hq => SeekFrom.noConfusion hq,
          fun q hq => SeekFrom.noConfusion hq, fun q hq hq2 => by omega⟩
    | End p =>
      rw [show (3 : Nat) = 2 + 1 from rfl, seekCore_end r p 2] at hxo
      have hb := seekCore_start_scan_le ((r.compute_index).1) _ 0 x
        (by rw [compute_index_granularity]; exact hg)
        (by rw [compute_index_granularity]; exact hg2) (u64sub_lt _ _) hxo
      rw [compute_index_granularity] at hb
      exact ⟨by omega, fun q hq => SeekFrom.noConfusion hq, fun q hq => by omega,
        fun q hq => SeekFrom.noConfusion hq⟩

/-- Witness for the amended C6 at a concrete input: granularity 2, a
`Current 1` seek from line 0 scanning one line. -/
theorem C6_scan_bound_witness :
    (0 < exReader4.index.granularity ∧ exReader4.index.granularity ≤ 2 ^ 63 ∧
      exReader4.seekScanned (.Current 1) = some 1) ∧
    (1 ≤ 2 * (exReader4.index.granularity - 1) ∧
      (∀ q : Nat, SeekFrom.Current 1 = SeekFrom.Start q →
        1 ≤ exReader4.index.granularity - 1) ∧
      (∀ q : Int, SeekFrom.Current 1 = SeekFrom.End q →
        1 ≤ exReader4.index.granularity - 1) ∧
      (∀ q : Int, SeekFrom.Current 1 = SeekFrom.Current q → q < 0 →
        1 ≤ exReader4.index.granularity - 1)) :=
  ⟨⟨by decide, by decide, by decide⟩,
    C6_scan_bound exReader4 (.Current 1) 1 (by decide) (by decide)
      (fun q h => SeekFrom.noConfusion h) (by decide)⟩

/-- C2: idempotence of `compute` fails.  On the 3-line stream `a, b, c` with
granularity 2, the first computation records entry `2 ↦ 4` with
`line_count = 3`, `byte_count = 6`; recomputing with no appended data leaves
the entries but shrinks `line_count` to 2 and `byte_count` to 4, because the
recomputation seeks to the stored offset of line 2 and then discards line 2
itself (never counted) as if it had already been counted. -/
theorem C2_compute_not_idempotent :
    (exIdx1.index = [(2, 4)] ∧ exIdx1.line_count = 3 ∧ exIdx1.byte_count = 6) ∧
    (exIdx2.index = exIdx1.index ∧ exIdx2.line_count = 2 ∧ exIdx2.byte_count = 4) := by
  decide

/-- C3: incremental consistency fails.  Indexing the 3-line stream
`a, b, ccccc` (granularity 2), appending `d, e` and recomputing records the
entry `4 ↦ 8`, whereas a single computation over all 5 lines records
`4 ↦ 12`: the incremental scan resumes at the stored offset of line 2 but
discards line 2 without accounting its bytes, so the appended range gets a
wrong offset (and `line_count` 4 instead of 5). -/
theorem C3_incremental_mismatch :
    (((LinesIndex.new 2).compute exStreamA).1.compute exStreamB).1.index =
      [(2, 4), (4, 8)] ∧
    ((LinesIndex.new 2).compute exStreamB).1.index = [(2, 4), (4, 12)] ∧
    (((LinesIndex.new 2).compute exStreamA).1.compute exStreamB).1.line_count = 4 ∧
    ((LinesIndex.new 2).compute exStreamB).1.line_count = 5 := by
  decide

/-- C4: monotonicity of recomputation fails.  With no data appended between
two `compute` calls (3 lines, granularity 2), the entries keep their keys but
both `line_count` and `byte_count` strictly decrease on the second call. -/
theorem C4_counts_not_monotone :
    exIdx2.index = exIdx1.index ∧ exIdx2.line_count < exIdx1.line_count ∧
    exIdx2.byte_count < exIdx1.byte_count := by
  decide

/-- C5: the return value of a seek that performs a forward scan is the number
of bytes the scan advanced, not the resulting absolute byte offset.  On the
4-line stream with granularity 2, `Start 3` repositions the stream to
absolute offset 6 but returns 2 (the bytes consumed scanning line 2). -/
theorem C5_seek_returns_scan_bytes :
    (exReader4.seek (.Start 3)).map (fun x => (x.2, x.1.streamPos)) = some (2, 6) ∧
    (2 : Nat) ≠ 6 := by
  decide

/-- C9 counterexample: `clear` does not reset the counts.  On the computed
index over the 3-line stream, clearing drops the entries but leaves
`line_count = 3` and `byte_count = 6`. -/
theorem C9_counterexample :
    exIdx1.clear.index = [] ∧ exIdx1.clear.line_count = 3 ∧
    exIdx1.clear.byte_count = 6 ∧ ¬ (exIdx1.clear.line_count = 0) := by
  decide

/-- C9 (amended): `clear` (and `clear_index`) drops all recorded entries and
leaves granularity, `line_count` and `byte_count` unchanged. -/
theorem C9_clear_drops_entries (i : LinesIndex) (r : IndexedLineReader) :
    (i.clear.index = [] ∧ i.clear.granularity = i.granularity ∧
      i.clear.line_count = i.line_count ∧ i.clear.byte_count = i.byte_count) ∧
    (r.clear_index.index.index = [] ∧
      r.clear_index.index.granularity = r.index.granularity ∧
      r.clear_index.index.line_count = r.index.line_count ∧
      r.clear_index.index.byte_count = r.index.byte_count ∧
      r.clear_index.pos = r.pos ∧ r.clear_index.line_count = r.line_count ∧
      r.clear_index.stream = r.stream ∧ r.clear_index.streamPos = r.streamPos) :=
  ⟨⟨rfl, rfl, rfl, rfl⟩, ⟨rfl, rfl, rfl, rfl, rfl, rfl, rfl, rfl⟩⟩

/-- C10: pass-through frame property.  `read`, `fill_buf` and `consume`
return exactly what the same call on the wrapped stream returns and leave the
index entries, `line_count`, and the cursor's current line position
unchanged; only the raw byte position moves, so it can go stale relative to
`pos`. -/
theorem C10_passthrough (r : IndexedLineReader) (n amt : Nat) :
    ((r.read n).2 = (readerRead r.stream r.streamPos n).1 ∧
      (r.read n).1.streamPos = (readerRead r.stream r.streamPos n).2 ∧
      (r.read n).1.index = r.index ∧ (r.read n).1.pos = r.pos ∧
      (r.read n).1.line_count = r.line_count ∧ (r.read n).1.stream = r.stream) ∧
    ((r.fill_buf).2 = readerFillBuf r.stream r.streamPos ∧ (r.fill_buf).1 = r) ∧
    ((r.consume amt).streamPos = r.streamPos + amt ∧ (r.consume amt).index = r.index ∧
      (r.consume amt).pos = r.pos ∧ (r.consume amt).line_count = r.line_count ∧
      (r.consume amt).stream = r.stream) :=
  ⟨⟨rfl, rfl, rfl, rfl, rfl, rfl⟩, ⟨rfl, rfl⟩, ⟨rfl, rfl, rfl, rfl, rfl⟩⟩

end ILR
